import Mathlib

/-!
Verification of the settings-resolution core of kakoune-lsp (`src/settings.rs`):
the fallback chain that resolves per-server initialization options, the
section projector, the dynamic-config recorder, and the engine that explodes
flattened `key=value` entries into a nested settings tree.

The embedding is shallow: `serde_json::Value` becomes the inductive `Value`
below (numbers are modelled as integers; no claim concerns floats),
`serde_json::Map` becomes an association list with unique keys, and the
external TOML parser (`toml::from_str` / `TryInto<serde_json::Value>`) is a
parameter of every function that uses it, so theorems quantify over every
possible behaviour of that external crate.  Rust panics (`unwrap`, `panic!`)
are modelled by an `Option`/`RecordResult` layer: `none`/`.fatal` means the
call aborted.
-/

set_option autoImplicit false

namespace Settings

/-- Embedding of `serde_json::Value`.  `obj` carries the entries of a
`serde_json::Map<String, Value>` as an ordered association list whose keys
are kept unique by the operations below. -/
inductive Value where
  | null
  | bool (b : Bool)
  | num (n : Int)
  | str (s : String)
  | arr (elems : List Value)
  | obj (entries : List (String × Value))
deriving Repr

/-- The entry list of a `serde_json::Map<String, Value>`. -/
abbrev JMap := List (String × Value)

/-- `serde_json::Map::get`: first (unique) binding of the key. -/
def mapGet (m : JMap) (k : String) : Option Value :=
  match m with
  | [] => none
  | (k', v) :: rest => if k' = k then some v else mapGet rest k

/-- `serde_json::Map::insert`: if the key is present its value is updated in
place and the old value is returned; otherwise the binding is appended and
`none` is returned. -/
def mapInsert (m : JMap) (k : String) (v : Value) : JMap × Option Value :=
  match m with
  | [] => ([(k, v)], none)
  | (k', v') :: rest =>
    if k' = k then ((k', v) :: rest, some v')
    else
      let r := mapInsert rest k v
      ((k', v') :: r.1, r.2)

/-- The two failure shapes of `insert_value` (`src/settings.rs:144-156`).
The Rust code reports them as formatted strings; the constructors carry the
same payloads the messages are built from. -/
inductive InsertErr where
  | notAnObject (key : String)
  | duplicateLeaf (old : Value)
deriving Repr

/-- `insert_value` (`src/settings.rs:127-158`).  Walks `path`, fetching or
creating an `Object` at each segment (`entry(key).or_insert_with(...)`), and
finally inserts `local_key ↦ value` into the object reached.  Returns the
updated map together with the error, because the Rust function mutates the
map through `&mut` even on the error paths: a duplicate leaf is *replaced*
(`Map::insert` updates in place and hands back the old value, which is what
the `Err` reports). -/
def insert_value (target : JMap) (path : List String) (local_key : String)
    (value : Value) : JMap × Option InsertErr :=
  match path with
  | key :: rest =>
    match mapGet target key with
    | none =>
      -- `or_insert_with` creates an empty object; recursion continues inside it.
      let r := insert_value [] rest local_key value
      ((mapInsert target key (.obj r.1)).1, r.2)
    | some (.obj sub) =>
      let r := insert_value sub rest local_key value
      ((mapInsert target key (.obj r.1)).1, r.2)
    | some _ => (target, some (.notAnObject key))
  | [] =>
    match mapInsert target local_key value with
    | (m, some old) => (m, some (.duplicateLeaf old))
    | (m, none) => (m, none)

/-- Helper for `split_once`, on the character list of the string. -/
def splitOnceAux (c : Char) : List Char → Option (List Char × List Char)
  | [] => none
  | x :: xs =>
    if x = c then some ([], xs)
    else
      match splitOnceAux c xs with
      | none => none
      | some (a, b) => some (x :: a, b)

/-- Rust `str::split_once(c)`: the parts before and after the first
occurrence of `c`, or `none` when `c` does not occur. -/
def split_once (s : String) (c : Char) : Option (String × String) :=
  match splitOnceAux c s.data with
  | none => none
  | some (a, b) => some (String.mk a, String.mk b)

/-- Helper for `splitChar`, on the character list of the string. -/
def splitAllAux (c : Char) : List Char → List (List Char)
  | [] => [[]]
  | x :: xs =>
    if x = c then [] :: splitAllAux c xs
    else
      match splitAllAux c xs with
      | [] => [[x]]
      | y :: ys => (x :: y) :: ys

/-- Rust `str::split(c)`: splits on every occurrence of `c`; the empty string
yields `[""]`, so the result is never empty. -/
def splitChar (s : String) (c : Char) : List String :=
  (splitAllAux c s.data).map String.mk

/-- The loop body of `explode_str_to_str_map` (`src/settings.rs:166-211`),
threading the accumulated `settings` map.  `fromStr` models the external
`toml::from_str` and `tryInto` the `toml::Value → serde_json::Value`
conversion; a `none` from either is the warn-and-`continue` path.  A missing
`=` is `split_once(...).unwrap()`: the whole call panics, modelled by a
`none` result.  An `insert_value` error is warned about and the loop
continues — with the map as `insert_value` left it. -/
def explodeGo {T : Type} (fromStr : String → Option T) (tryInto : T → Option Value) :
    List String → JMap → Option JMap
  | [], settings => some settings
  | map_entry :: rest, settings =>
    match split_once map_entry '=' with
    | none => none
    | some (raw_key, raw_value) =>
      let key_parts := splitChar raw_key '.'
      match key_parts.getLast? with
      | none => explodeGo fromStr tryInto rest settings
      | some local_key =>
        match fromStr raw_value with
        | none => explodeGo fromStr tryInto rest settings
        | some toml_value =>
          match tryInto toml_value with
          | none => explodeGo fromStr tryInto rest settings
          | some value =>
            explodeGo fromStr tryInto rest
              (insert_value settings key_parts.dropLast local_key value).1

/-- `explode_str_to_str_map` (`src/settings.rs:160-214`): fold the entries
into an initially empty map.  `session` is only used by the Rust code for
diagnostics.  `none` models the panic on an entry with no `=`. -/
def explode_str_to_str_map {T : Type} (fromStr : String → Option T)
    (tryInto : T → Option Value) (_session : String) (map : List String) :
    Option JMap :=
  explodeGo fromStr tryInto map []

/-- Follow `path` through nested objects: the sub-map reached after
traversing every segment as an `Object` key, mirroring the walk of
`insert_value`. -/
def getObjPath (m : JMap) : List String → Option JMap
  | [] => some m
  | k :: rest =>
    match mapGet m k with
    | some (.obj sub) => getObjPath sub rest
    | _ => none

/-- Path lookup in a settings tree: walk `path` through nested objects, then
read `k` in the object reached.  `lookupLeaf m path k` is the value stored
for the dotted key whose segments are `path ++ [k]`. -/
def lookupLeaf (m : JMap) (path : List String) (k : String) : Option Value :=
  (getObjPath m path).bind fun sub => mapGet sub k

/-- `pathClear m path`: walking `path` from `m` meets no existing
non-`Object` node (each segment is either absent — everything below would be
freshly created — or an `Object`).  This is exactly the condition under
which `insert_value` reaches the end of its path. -/
def pathClear (m : JMap) : List String → Bool
  | [] => true
  | k :: rest =>
    match mapGet m k with
    | none => true
    | some (.obj sub) => pathClear sub rest
    | some _ => false

/-- `serde_json::Value::get(&str)`: key lookup on an `Object`, `none` on any
other variant. -/
def Value.get : Value → String → Option Value
  | .obj m, key => mapGet m key
  | _, _ => none

/-- Generic association-list lookup, embedding the `.get(k)` of the various
maps held by the context (`BTreeMap`/`HashMap` lookups). -/
def lookup {α : Type} {β : Type} [DecidableEq α] : List (α × β) → α → Option β
  | [], _ => none
  | (k, v) :: rest, k' => if k = k' then some v else lookup rest k'

/-- Modelled from the spec: `StaticServerConfig`, the per-server-name record
`{ settings, settings_section }` sourced from the static project
configuration (the Rust type lives in `types.rs`, outside the shown file). -/
structure ServerConfig where
  settings : Option Value
  settings_section : Option String
deriving Repr

/-- Modelled from the spec: one entry of `DynamicConfig.language_server`
(the Rust type lives in `types.rs`, outside the shown file). -/
structure DynServerConfig where
  settings : Option Value
  settings_section : Option String
deriving Repr

/-- Modelled from the spec: the process-wide `DynamicConfig` state — a
mapping from server name to per-server dynamic settings, replaced wholesale
by `record_dynamic_config`. -/
structure DynamicConfig where
  language_server : List (String × DynServerConfig)
deriving Repr

/-- Modelled from the spec: the static project configuration — the mapping
consulted by `server_configs`, plus the global legacy-mode flag consulted by
`is_using_legacy_toml` (both defined outside the shown file). -/
structure Config where
  language_server : List (String × ServerConfig)
  legacy_toml : Bool
deriving Repr

/-- Modelled from the spec: the per-request override for one server carried
by `EditorMeta.language_server` (root path and requested settings). -/
structure MetaServer where
  root : String
  settings : Option Value
deriving Repr

/-- Modelled from the spec: `EditorMeta`, the per-request context — a session
identifier and the per-server override map (the Rust type lives in
`types.rs`, outside the shown file). -/
structure EditorMeta where
  session : String
  language_server : List (String × MetaServer)
deriving Repr

/-- Modelled from the spec: one live entry of the server registry —
`ctx.language_servers` maps a `ServerId` to the running server's name and
its live `settings` slot (mutated by `record_dynamic_config`'s non-legacy
path). -/
structure ServerInstance where
  name : String
  settings : Option Value
deriving Repr

/-- Modelled from the spec: the slice of `Context` used by this component —
the static config, the process-wide `DynamicConfig`, the server registry
(`ServerId → ServerInstance`, `ServerId` embedded as `Nat`) and the route
cache `(server name, project root) → ServerId`. -/
structure Ctx where
  config : Config
  dynamic_config : DynamicConfig
  language_servers : List (Nat × ServerInstance)
  route_cache : List ((String × String) × Nat)
deriving Repr

/-- Modelled from the spec: `server_configs(&ctx.config, meta)` (defined
outside the shown file) — the read-only static mapping from server name to
`StaticServerConfig`. -/
def server_configs (config : Config) (_meta : EditorMeta) :
    List (String × ServerConfig) :=
  config.language_server

/-- Modelled from the spec: `is_using_legacy_toml` (defined outside the
shown file) — the global legacy-mode flag of the project configuration. -/
def is_using_legacy_toml (config : Config) : Bool :=
  config.legacy_toml

/-- Modelled from the spec: `ctx.server(server_id)` — registry lookup of a
running server by identity; absence is a caller-contract violation that
panics, which callers below surface as `none`. -/
def lookupServer (ctx : Ctx) (server_id : Nat) : Option ServerInstance :=
  lookup ctx.language_servers server_id

/-- `configured_section` (`src/settings.rs:55-68`).  The outer `Option` is
the panic layer (`ctx.server(server_id)` on an unknown id); the inner
`Option Value` is the function's value: project `settings` through the
static config's `settings_section` for this server's name, one level deep. -/
def configured_section (meta : EditorMeta) (ctx : Ctx) (server_id : Nat)
    (settings : Option Value) : Option (Option Value) :=
  match lookupServer ctx server_id with
  | none => none
  | some server =>
    some (settings.bind fun settings =>
      (lookup (server_configs ctx.config meta) server.name).bind fun cfg =>
        cfg.settings_section.bind fun sec => settings.get sec)

/-- Result of `record_dynamic_config`: `.ok` is a normal return with the
updated context; `.fatal` is a panic, carrying the context exactly as it
stood when the panic fired (mutations through `&mut` before the panic are
kept, later ones never happen). -/
inductive RecordResult where
  | ok (ctx : Ctx)
  | fatal (ctx : Ctx)
deriving Repr

/-- `ctx.language_servers.get_mut(server_id).unwrap().settings = ...`
(`src/settings.rs:91`): update the live settings of one registered server;
`none` when the id is absent (the `unwrap` panics). -/
def updateServerSettings (servers : List (Nat × ServerInstance)) (id : Nat)
    (s : Option Value) : Option (List (Nat × ServerInstance)) :=
  match servers with
  | [] => none
  | (id', inst) :: rest =>
    if id' = id then some ((id', { inst with settings := s }) :: rest)
    else
      match updateServerSettings rest id s with
      | none => none
      | some rest' => some ((id', inst) :: rest')

/-- The non-legacy loop of `record_dynamic_config`
(`src/settings.rs:85-93`): for every server named in the request's override
map, resolve its identity through the route cache (`unwrap`: panic when
missing) and overwrite that server's live settings. -/
def recordGo : List (String × MetaServer) → Ctx → RecordResult
  | [], ctx => .ok ctx
  | (server_name, server) :: rest, ctx =>
    match lookup ctx.route_cache (server_name, server.root) with
    | none => .fatal ctx
    | some server_id =>
      match updateServerSettings ctx.language_servers server_id server.settings with
      | none => .fatal ctx
      | some servers' => recordGo rest { ctx with language_servers := servers' }

/-- `record_dynamic_config` (`src/settings.rs:70-94`).  `parseConfig` models
the external `toml::from_str::<DynamicConfig>`.  On parse failure the code
shows an error and panics before touching `ctx.dynamic_config`, so the
`.fatal` carries the context unchanged.  On success `ctx.dynamic_config` is
replaced wholesale, then (non-legacy mode) the per-request overrides are
pushed into the live registry. -/
def record_dynamic_config (parseConfig : String → Option DynamicConfig)
    (meta : EditorMeta) (ctx : Ctx) (config : String) : RecordResult :=
  match parseConfig config with
  | none => .fatal ctx
  | some cfg =>
    let ctx' : Ctx := { ctx with dynamic_config := cfg }
    if is_using_legacy_toml ctx'.config then .ok ctx'
    else recordGo meta.language_server ctx'

/-- The two kinds of host round trip performed by this component, used to
trace how many times each request is issued during a resolution pass. -/
inductive HostRequest where
  | getConfig
  | getServerInitOptions
deriving Repr, DecidableEq

/-- Modelled from the spec: the host side of the blocking round trips — the
configuration blob answered to `lsp-get-config`, and the token stream
(newline-delimited, `"map-end"`-terminated) answered to
`lsp-get-server-initialization-options`.  The host is deterministic within a
pass: every round trip of the same kind receives the same response. -/
structure Host where
  dynamicConfigText : String
  legacyTokens : List String
deriving Repr

/-- `request_legacy_initialization_options_from_kakoune`
(`src/settings.rs:100-125`).  The tokens before the `"map-end"` sentinel are
the flattened entries; an empty sequence yields `none` (no override), a
non-empty one is exploded into an object.  The outer `Option` is the panic
layer (an entry with no `=` aborts the call). -/
def request_legacy_initialization_options_from_kakoune {T : Type}
    (fromStr : String → Option T) (tryInto : T → Option Value)
    (meta : EditorMeta) (tokens : List String) : Option (Option Value) :=
  let server_configuration := tokens.takeWhile (fun s => s ≠ "map-end")
  if server_configuration.isEmpty then some none
  else
    match explode_str_to_str_map fromStr tryInto meta.session server_configuration with
    | none => none
    | some m => some (some (.obj m))

/-- `request_dynamic_configuration_from_kakoune` (`src/settings.rs:10-19`):
one `lsp-get-config` round trip, whose response text is recorded via
`record_dynamic_config`.  A panic in the recorder propagates. -/
def request_dynamic_configuration_from_kakoune
    (parseConfig : String → Option DynamicConfig) (host : Host)
    (meta : EditorMeta) (ctx : Ctx) : RecordResult :=
  record_dynamic_config parseConfig meta ctx host.dynamicConfigText

/-- Source 1 of the fallback chain (`src/settings.rs:29-35`): the dynamic
config's settings for this server's name, projected through
`configured_section`.  Outer `Option` is the panic layer. -/
def dynamicSource (meta : EditorMeta) (ctx : Ctx) (server_id : Nat) :
    Option (Option Value) :=
  match lookupServer ctx server_id with
  | none => none
  | some server =>
    configured_section meta ctx server_id
      ((lookup ctx.dynamic_config.language_server server.name).bind
        (fun v => v.settings))

/-- Source 3 of the fallback chain (`src/settings.rs:47-49`): the static
config's own settings, projected through `configured_section`.  The
`.get(server_name).unwrap()` panics when the server has no static entry
(outer `none`). -/
def staticSource (meta : EditorMeta) (ctx : Ctx) (server_id : Nat) :
    Option (Option Value) :=
  match lookupServer ctx server_id with
  | none => none
  | some server =>
    match lookup (server_configs ctx.config meta) server.name with
    | none => none
    | some server_config =>
      configured_section meta ctx server_id server_config.settings

/-- The loop body of `request_initialization_options_from_kakoune` for one
server (`src/settings.rs:28-50`): try the dynamic source; if it yields a
value use it, otherwise perform the legacy round trip; if that yields a
value use it, otherwise fall back to the static source.  Returns the chosen
`Option Value` together with the host requests issued for this server. -/
def resolveServer {T : Type} (fromStr : String → Option T)
    (tryInto : T → Option Value) (host : Host) (meta : EditorMeta) (ctx : Ctx)
    (server_id : Nat) : Option (Option Value × List HostRequest) :=
  match dynamicSource meta ctx server_id with
  | none => none
  | some settings =>
    if settings.isSome then some (settings, [])
    else
      match request_legacy_initialization_options_from_kakoune fromStr tryInto
          meta host.legacyTokens with
      | none => none
      | some legacy_settings =>
        if legacy_settings.isSome then
          some (legacy_settings, [.getServerInitOptions])
        else
          match staticSource meta ctx server_id with
          | none => none
          | some st => some (st, [.getServerInitOptions])

/-- The per-server iteration of the resolution driver
(`src/settings.rs:27-52`), accumulating one result per server and the trace
of host requests issued inside the loop. -/
def driverGo {T : Type} (fromStr : String → Option T)
    (tryInto : T → Option Value) (host : Host) (meta : EditorMeta) (ctx : Ctx) :
    List Nat → Option (List (Option Value) × List HostRequest)
  | [] => some ([], [])
  | server_id :: rest =>
    match resolveServer fromStr tryInto host meta ctx server_id with
    | none => none
    | some (r, t) =>
      match driverGo fromStr tryInto host meta ctx rest with
      | none => none
      | some (rs, ts) => some (r :: rs, t ++ ts)

/-- `request_initialization_options_from_kakoune` (`src/settings.rs:21-53`):
one `lsp-get-config` round trip recorded into the context, then the
per-server fallback chain.  Returns, when no panic fires, the per-server
results, the context after recording, and the full host-request trace of the
pass. -/
def request_initialization_options_from_kakoune {T : Type}
    (parseConfig : String → Option DynamicConfig)
    (fromStr : String → Option T) (tryInto : T → Option Value) (host : Host)
    (servers : List Nat) (meta : EditorMeta) (ctx : Ctx) :
    Option (List (Option Value) × Ctx × List HostRequest) :=
  match request_dynamic_configuration_from_kakoune parseConfig host meta ctx with
  | .fatal _ => none
  | .ok ctx' =>
    match driverGo fromStr tryInto host meta ctx' servers with
    | none => none
    | some (sections, trace) => some (sections, ctx', .getConfig :: trace)

/-- One well-formed flattened entry: `e` splits at its first `=` into a
dotted key and a value text; the key splits on `.` into path `path` and
leaf `leaf`; the (parametric) TOML pipeline parses and converts the value
text to `v`.  This is exactly the data `explode_str_to_str_map` extracts
from the entry. -/
def EntrySem {T : Type} (fromStr : String → Option T)
    (tryInto : T → Option Value) (e : String) (path : List String)
    (leaf : String) (v : Value) : Prop :=
  ∃ raw_key raw_value t,
    split_once e '=' = some (raw_key, raw_value) ∧
    splitChar raw_key '.' = path ++ [leaf] ∧
    fromStr raw_value = some t ∧ tryInto t = some v

/-- Two dotted keys conflict exactly when one is a prefix of the other;
`Incomp` says the two keys are free of conflicts. -/
def Incomp (a b : List String) : Prop := ¬ a <+: b ∧ ¬ b <+: a

/-- Modelled from the spec: the behaviour of the external TOML pipeline
(`toml::from_str` followed by the conversion to a JSON value) on the scalar
literals appearing in the spec's worked examples; any other value text is
treated as a parse failure. -/
def tomlModel (s : String) : Option Value :=
  if s = "1" then some (.num 1)
  else if s = "2" then some (.num 2)
  else none

/-- A minimal request context for concrete runs: a session id and no
per-server overrides. -/
def metaEx : EditorMeta := { session := "session", language_server := [] }

/-- A minimal context for concrete runs of the recorder. -/
def ctxEx : Ctx :=
  { config := { language_server := [], legacy_toml := true },
    dynamic_config := { language_server := [] },
    language_servers := [],
    route_cache := [] }

/-- A context with one registered server `"s"` whose static configuration
names the section `"sec"`, for concrete runs of the section projector. -/
def ctxSection : Ctx :=
  { config :=
      { language_server :=
          [("s", { settings := none, settings_section := some "sec" })],
        legacy_toml := true },
    dynamic_config := { language_server := [] },
    language_servers := [(0, { name := "s", settings := none })],
    route_cache := [] }

/-- A context with two registered servers whose static configurations carry
settings under section `"k"` but which have no dynamic configuration, for
concrete resolution passes. -/
def ctxTwo : Ctx :=
  { config :=
      { language_server :=
          [("s1", { settings := some (.obj [("k", .num 1)]),
                    settings_section := some "k" }),
           ("s2", { settings := some (.obj [("k", .num 1)]),
                    settings_section := some "k" })],
        legacy_toml := true },
    dynamic_config := { language_server := [] },
    language_servers :=
      [(0, { name := "s1", settings := none }),
       (1, { name := "s2", settings := none })],
    route_cache := [] }

/-- A host whose legacy response is an empty entry sequence. -/
def hostEmptyLegacy : Host :=
  { dynamicConfigText := "", legacyTokens := ["map-end"] }

/-- `true` exactly when the dynamic source runs but yields no value for this
server — the situation in which the resolution loop performs the legacy
round trip. -/
def dynamicMiss (meta : EditorMeta) (ctx : Ctx) (server_id : Nat) : Bool :=
  match dynamicSource meta ctx server_id with
  | some none => true
  | _ => false

/-! ### Basic lemmas about the map operations -/

theorem mapGet_mapInsert_self (m : JMap) (k : String) (v : Value) :
    mapGet (mapInsert m k v).1 k = some v := by
  induction m with
  | nil => simp [mapInsert, mapGet]
  | cons p rest ih =>
    obtain ⟨k', v'⟩ := p
    by_cases h : k' = k <;> simp [mapInsert, mapGet, h, ih]

theorem mapGet_mapInsert_ne (m : JMap) (k a : String) (v : Value) (h : a ≠ k) :
    mapGet (mapInsert m k v).1 a = mapGet m a := by
  induction m with
  | nil => simp [mapInsert, mapGet, Ne.symm h]
  | cons p rest ih =>
    obtain ⟨k', v'⟩ := p
    by_cases hk : k' = k
    · subst hk
      simp [mapInsert, mapGet, Ne.symm h]
    · simp [mapInsert, mapGet, hk, ih]

theorem mapInsert_snd (m : JMap) (k : String) (v : Value) :
    (mapInsert m k v).2 = mapGet m k := by
  induction m with
  | nil => simp [mapInsert, mapGet]
  | cons p rest ih =>
    obtain ⟨k', v'⟩ := p
    by_cases h : k' = k <;> simp [mapInsert, mapGet, h, ih]

theorem insert_value_nil (m : JMap) (k : String) (v : Value) :
    insert_value m [] k v =
      ((mapInsert m k v).1, (mapInsert m k v).2.map InsertErr.duplicateLeaf) := by
  show (match mapInsert m k v with
    | (m', some old) => (m', some (.duplicateLeaf old))
    | (m', none) => (m', none)) =
    ((mapInsert m k v).1, (mapInsert m k v).2.map InsertErr.duplicateLeaf)
  rcases mapInsert m k v with ⟨m2, old⟩
  cases old <;> rfl

theorem pathClear_nil_left : ∀ (q : List String), pathClear [] q = true
  | [] => rfl
  | _ :: _ => rfl

theorem lookupLeaf_nil_left : ∀ (q : List String) (l : String),
    lookupLeaf [] q l = none
  | [], _ => rfl
  | _ :: _, _ => rfl

theorem lookupLeaf_cons (m : JMap) (key : String) (rest : List String)
    (l : String) :
    lookupLeaf m (key :: rest) l =
      match mapGet m key with
      | some (.obj sub) => lookupLeaf sub rest l
      | _ => none := by
  show (getObjPath m (key :: rest)).bind _ = _
  rcases hm : mapGet m key with _ | val
  · simp [getObjPath, hm]
  · cases val <;> simp [getObjPath, hm, lookupLeaf]

/-! ### Behaviour of `insert_value` on lookups -/

/-- After inserting along a clear path, looking the inserted dotted key up
yields the inserted value — even when the insert reported a duplicate leaf,
because `Map::insert` replaces the old value. -/
theorem lookupLeaf_insert_self (p : List String) :
    ∀ (m : JMap) (k : String) (v : Value), pathClear m p = true →
      lookupLeaf (insert_value m p k v).1 p k = some v := by
  induction p with
  | nil =>
    intro m k v _
    rw [insert_value_nil]
    show lookupLeaf _ [] k = some v
    simp [lookupLeaf, getObjPath, mapGet_mapInsert_self]
  | cons key rest ih =>
    intro m k v hclear
    rcases hm : mapGet m key with _ | val
    · have heq : (insert_value m (key :: rest) k v).1 =
          (mapInsert m key (.obj (insert_value [] rest k v).1)).1 := by
        simp [insert_value, hm]
      rw [heq, lookupLeaf_cons, mapGet_mapInsert_self]
      exact ih [] k v (pathClear_nil_left rest)
    · cases val
      case obj sub =>
        have heq : (insert_value m (key :: rest) k v).1 =
            (mapInsert m key (.obj (insert_value sub rest k v).1)).1 := by
          simp [insert_value, hm]
        rw [heq, lookupLeaf_cons, mapGet_mapInsert_self]
        have hclear' : pathClear sub rest = true := by
          simpa [pathClear, hm] using hclear
        exact ih sub k v hclear'
      all_goals simp [pathClear, hm] at hclear

/-- Inserting at one dotted key leaves the lookup of any prefix-incomparable
dotted key unchanged, whether or not the insert succeeded. -/
theorem lookupLeaf_insert_frame (p : List String) :
    ∀ (m : JMap) (k : String) (v : Value) (q : List String) (l : String),
      ¬ (p ++ [k]) <+: (q ++ [l]) → ¬ (q ++ [l]) <+: (p ++ [k]) →
      lookupLeaf (insert_value m p k v).1 q l = lookupLeaf m q l := by
  induction p with
  | nil =>
    intro m k v q l h1 h2
    rw [insert_value_nil]
    cases q with
    | nil =>
      have hkl : l ≠ k := by
        intro he; subst he; exact h1 (by simp)
      show lookupLeaf _ [] l = lookupLeaf m [] l
      simp [lookupLeaf, getObjPath, mapGet_mapInsert_ne _ _ _ _ hkl]
    | cons a q' =>
      have hka : a ≠ k := by
        intro he; subst he
        exact h1 (by simp [List.cons_prefix_cons])
      rw [lookupLeaf_cons, lookupLeaf_cons, mapGet_mapInsert_ne _ _ _ _ hka]
  | cons key p' ih =>
    intro m k v q l h1 h2
    rcases hm : mapGet m key with _ | val
    · have heq : (insert_value m (key :: p') k v).1 =
          (mapInsert m key (.obj (insert_value [] p' k v).1)).1 := by
        simp [insert_value, hm]
      rw [heq]
      cases q with
      | nil =>
        have hlk : l ≠ key := by
          intro he; subst he
          exact h2 (by simp [List.cons_prefix_cons])
        show lookupLeaf _ [] l = lookupLeaf m [] l
        simp [lookupLeaf, getObjPath, mapGet_mapInsert_ne _ _ _ _ hlk]
      | cons a q' =>
        by_cases ha : a = key
        · subst ha
          rw [lookupLeaf_cons, lookupLeaf_cons, mapGet_mapInsert_self, hm]
          have h1' : ¬ (p' ++ [k]) <+: (q' ++ [l]) := fun hp =>
            h1 (by simpa [List.cons_prefix_cons] using hp)
          have h2' : ¬ (q' ++ [l]) <+: (p' ++ [k]) := fun hp =>
            h2 (by simpa [List.cons_prefix_cons] using hp)
          simpa [lookupLeaf_nil_left] using ih [] k v q' l h1' h2'
        · rw [lookupLeaf_cons, lookupLeaf_cons, mapGet_mapInsert_ne _ _ _ _ ha]
    · cases val
      case obj sub =>
        have heq : (insert_value m (key :: p') k v).1 =
            (mapInsert m key (.obj (insert_value sub p' k v).1)).1 := by
          simp [insert_value, hm]
        rw [heq]
        cases q with
        | nil =>
          have hlk : l ≠ key := by
            intro he; subst he
            exact h2 (by simp [List.cons_prefix_cons])
          show lookupLeaf _ [] l = lookupLeaf m [] l
          simp [lookupLeaf, getObjPath, mapGet_mapInsert_ne _ _ _ _ hlk]
        | cons a q' =>
          by_cases ha : a = key
          · subst ha
            rw [lookupLeaf_cons, lookupLeaf_cons, mapGet_mapInsert_self, hm]
            have h1' : ¬ (p' ++ [k]) <+: (q' ++ [l]) := fun hp =>
              h1 (by simpa [List.cons_prefix_cons] using hp)
            have h2' : ¬ (q' ++ [l]) <+: (p' ++ [k]) := fun hp =>
              h2 (by simpa [List.cons_prefix_cons] using hp)
            exact ih sub k v q' l h1' h2'
          · rw [lookupLeaf_cons, lookupLeaf_cons, mapGet_mapInsert_ne _ _ _ _ ha]
      all_goals
        have heq : (insert_value m (key :: p') k v).1 = m := by
          simp [insert_value, hm]
        rw [heq]

/-- Inserting at one dotted key cannot obstruct any other path that is not
an extension of the inserted key: a clear path stays clear. -/
theorem pathClear_insert (p : List String) :
    ∀ (m : JMap) (k : String) (v : Value) (q : List String),
      pathClear m q = true → ¬ (p ++ [k]) <+: q →
      pathClear (insert_value m p k v).1 q = true := by
  induction p with
  | nil =>
    intro m k v q hq h1
    rw [insert_value_nil]
    cases q with
    | nil => rfl
    | cons a q' =>
      by_cases ha : a = k
      · subst ha
        exact absurd (by simp [List.cons_prefix_cons]) h1
      · have hq' := hq
        simp only [pathClear] at hq' ⊢
        rw [mapGet_mapInsert_ne _ _ _ _ ha]
        exact hq'
  | cons key p' ih =>
    intro m k v q hq h1
    rcases hm : mapGet m key with _ | val
    · have heq : (insert_value m (key :: p') k v).1 =
          (mapInsert m key (.obj (insert_value [] p' k v).1)).1 := by
        simp [insert_value, hm]
      rw [heq]
      cases q with
      | nil => rfl
      | cons a q' =>
        by_cases ha : a = key
        · subst ha
          simp only [pathClear, mapGet_mapInsert_self]
          exact ih [] k v q' (pathClear_nil_left q')
            (fun hp => h1 (by simpa [List.cons_prefix_cons] using hp))
        · have hq' := hq
          simp only [pathClear] at hq' ⊢
          rw [mapGet_mapInsert_ne _ _ _ _ ha]
          exact hq'
    · cases val
      case obj sub =>
        have heq : (insert_value m (key :: p') k v).1 =
            (mapInsert m key (.obj (insert_value sub p' k v).1)).1 := by
          simp [insert_value, hm]
        rw [heq]
        cases q with
        | nil => rfl
        | cons a q' =>
          by_cases ha : a = key
          · subst ha
            simp only [pathClear, mapGet_mapInsert_self]
            have hq' : pathClear sub q' = true := by
              simpa [pathClear, hm] using hq
            exact ih sub k v q' hq'
              (fun hp => h1 (by simpa [List.cons_prefix_cons] using hp))
          · have hq' := hq
            simp only [pathClear] at hq' ⊢
            rw [mapGet_mapInsert_ne _ _ _ _ ha]
            exact hq'
      all_goals
        have heq : (insert_value m (key :: p') k v).1 = m := by
          simp [insert_value, hm]
        rw [heq]
        exact hq

/-! ### The flattening engine on well-formed entry sequences -/

theorem EntrySem_det {T : Type} {fromStr : String → Option T}
    {tryInto : T → Option Value} {e : String} {p1 p2 : List String}
    {l1 l2 : String} {v1 v2 : Value}
    (h1 : EntrySem fromStr tryInto e p1 l1 v1)
    (h2 : EntrySem fromStr tryInto e p2 l2 v2) :
    p1 = p2 ∧ l1 = l2 ∧ v1 = v2 := by
  obtain ⟨rk1, rv1, t1, hs1, hp1, hf1, hc1⟩ := h1
  obtain ⟨rk2, rv2, t2, hs2, hp2, hf2, hc2⟩ := h2
  rw [hs1] at hs2
  obtain ⟨rfl, rfl⟩ : rk1 = rk2 ∧ rv1 = rv2 := by
    simpa [Prod.ext_iff] using hs2
  rw [hp1] at hp2
  have hl : l1 = l2 := by
    have := congrArg List.getLast? hp2
    simpa [List.getLast?_concat] using this
  subst hl
  have hp : p1 = p2 := List.append_cancel_right hp2
  subst hp
  rw [hf1] at hf2
  obtain rfl : t1 = t2 := by simpa using hf2
  rw [hc1] at hc2
  exact ⟨rfl, rfl, by simpa using hc2⟩

/-- On a list of entries that all carry an `=`, the flatten loop never
panics. -/
theorem explodeGo_isSome {T : Type} (fromStr : String → Option T)
    (tryInto : T → Option Value) :
    ∀ (es : List String) (m : JMap),
      (∀ e ∈ es, (split_once e '=').isSome) →
      (explodeGo fromStr tryInto es m).isSome := by
  intro es
  induction es with
  | nil => intro m _; simp [explodeGo]
  | cons e rest ih =>
    intro m h
    have he := h e (List.mem_cons_self e rest)
    rcases hs : split_once e '=' with _ | ⟨rk, rv⟩
    · rw [hs] at he; simp at he
    · simp only [explodeGo, hs]
      repeat' split
      all_goals exact ih _ (fun e' he' => h e' (List.mem_cons_of_mem _ he'))

/-- Main invariant of the flatten loop: on pairwise conflict-free
well-formed entries whose paths are clear in the starting map, the final map
holds every entry's value at its own dotted key, and every dotted key
conflict-free with all entries is untouched. -/
theorem explodeGo_lookup {T : Type} (fromStr : String → Option T)
    (tryInto : T → Option Value) :
    ∀ (es : List String) (m m' : JMap),
      explodeGo fromStr tryInto es m = some m' →
      (∀ e ∈ es, ∃ path leaf v, EntrySem fromStr tryInto e path leaf v) →
      es.Pairwise (fun e1 e2 => ∀ p1 l1 v1 p2 l2 v2,
        EntrySem fromStr tryInto e1 p1 l1 v1 →
        EntrySem fromStr tryInto e2 p2 l2 v2 →
        Incomp (p1 ++ [l1]) (p2 ++ [l2])) →
      (∀ e ∈ es, ∀ path leaf v, EntrySem fromStr tryInto e path leaf v →
        pathClear m path = true) →
      (∀ e ∈ es, ∀ path leaf v, EntrySem fromStr tryInto e path leaf v →
        lookupLeaf m' path leaf = some v) ∧
      (∀ q l, (∀ e ∈ es, ∀ path leaf v, EntrySem fromStr tryInto e path leaf v →
          Incomp (q ++ [l]) (path ++ [leaf])) →
        lookupLeaf m' q l = lookupLeaf m q l) := by
  intro es
  induction es with
  | nil =>
    intro m m' hgo _ _ _
    obtain rfl : m = m' := by simpa [explodeGo] using hgo
    exact ⟨fun e he => absurd he (List.not_mem_nil e), fun q l _ => rfl⟩
  | cons e rest ih =>
    intro m m' hgo hwf hpair hpc
    obtain ⟨p0, l0, v0, hsem0⟩ := hwf e (List.mem_cons_self e rest)
    obtain ⟨rk, rv, t0, hs, hsp, hf, hc⟩ := id hsem0
    simp only [explodeGo, hs, hsp, List.getLast?_concat, hf, hc,
      List.dropLast_concat] at hgo
    rw [List.pairwise_cons] at hpair
    obtain ⟨hhead, htail⟩ := hpair
    have hpc' : ∀ e' ∈ rest, ∀ path leaf v,
        EntrySem fromStr tryInto e' path leaf v →
        pathClear (insert_value m p0 l0 v0).1 path = true := by
      intro e' he' path leaf v hsem
      have hinc := hhead e' he' p0 l0 v0 path leaf v hsem0 hsem
      refine pathClear_insert p0 m l0 v0 path
        (hpc e' (List.mem_cons_of_mem _ he') path leaf v hsem) ?_
      intro hp
      exact hinc.1 (hp.trans (List.prefix_append path [leaf]))
    obtain ⟨ihlook, ihframe⟩ := ih (insert_value m p0 l0 v0).1 m' hgo
      (fun e' he' => hwf e' (List.mem_cons_of_mem _ he')) htail hpc'
    constructor
    · intro e'' he'' path leaf v hsem
      rcases List.mem_cons.mp he'' with rfl | he''
      · obtain ⟨hp, hl, hv⟩ := EntrySem_det hsem hsem0
        rw [hp, hl, hv]
        have hself : lookupLeaf (insert_value m p0 l0 v0).1 p0 l0 = some v0 :=
          lookupLeaf_insert_self p0 m l0 v0
            (hpc e'' (List.mem_cons_self _ _) p0 l0 v0 hsem0)
        have hframe := ihframe p0 l0 (fun e' he' path leaf v hsem' =>
          hhead e' he' p0 l0 v0 path leaf v hsem0 hsem')
        rw [hframe]
        exact hself
      · exact ihlook e'' he'' path leaf v hsem
    · intro q l hq
      rw [ihframe q l (fun e' he' path leaf v hsem' =>
        hq e' (List.mem_cons_of_mem _ he') path leaf v hsem')]
      have hinc := hq e (List.mem_cons_self _ _) p0 l0 v0 hsem0
      exact lookupLeaf_insert_frame p0 m l0 v0 q l hinc.2 hinc.1

theorem mapInsert_same (m : JMap) (k : String) (v : Value)
    (h : mapGet m k = some v) : (mapInsert m k v).1 = m := by
  induction m with
  | nil => simp [mapGet] at h
  | cons p rest ih =>
    obtain ⟨k', v'⟩ := p
    by_cases hk : k' = k
    · subst hk
      have hv : v' = v := by simpa [mapGet] using h
      subst hv
      simp [mapInsert]
    · have h' : mapGet rest k = some v := by simpa [mapGet, hk] using h
      simp [mapInsert, hk, ih h']

/-- Inserting a leaf whose whole path already resolves through `Object`
nodes, at a leaf key that is already bound, reports a duplicate-leaf
conflict carrying the old value — and stores the new value in its place. -/
theorem insert_value_duplicate (p : List String) :
    ∀ (m final : JMap) (k : String) (v old : Value),
      getObjPath m p = some final → mapGet final k = some old →
      (insert_value m p k v).2 = some (.duplicateLeaf old) ∧
      lookupLeaf (insert_value m p k v).1 p k = some v := by
  induction p with
  | nil =>
    intro m final k v old hpath hold
    obtain rfl : m = final := by simpa [getObjPath] using hpath
    rw [insert_value_nil]
    constructor
    · show (mapInsert m k v).2.map _ = _
      rw [mapInsert_snd, hold]
      rfl
    · show lookupLeaf _ [] k = some v
      simp [lookupLeaf, getObjPath, mapGet_mapInsert_self]
  | cons key rest ih =>
    intro m final k v old hpath hold
    rcases hm : mapGet m key with _ | val
    · simp [getObjPath, hm] at hpath
    · cases val
      case obj sub =>
        have hpath' : getObjPath sub rest = some final := by
          simpa [getObjPath, hm] using hpath
        obtain ⟨ih1, ih2⟩ := ih sub final k v old hpath' hold
        have heq : insert_value m (key :: rest) k v =
            ((mapInsert m key (.obj (insert_value sub rest k v).1)).1,
              (insert_value sub rest k v).2) := by
          simp [insert_value, hm]
        rw [heq]
        refine ⟨ih1, ?_⟩
        show lookupLeaf (mapInsert m key (.obj (insert_value sub rest k v).1)).1
          (key :: rest) k = some v
        rw [lookupLeaf_cons, mapGet_mapInsert_self]
        exact ih2
      all_goals simp [getObjPath, hm] at hpath

/-- When the walk of an insert path meets an existing node that is not an
`Object`, the insert reports a not-an-object conflict for that segment and
returns the map unchanged. -/
theorem insert_value_not_object (pre : List String) :
    ∀ (m mid : JMap) (k : String) (rest : List String) (lk : String)
      (v w : Value),
      getObjPath m pre = some mid → mapGet mid k = some w →
      (∀ sub, w ≠ .obj sub) →
      insert_value m (pre ++ k :: rest) lk v = (m, some (.notAnObject k)) := by
  induction pre with
  | nil =>
    intro m mid k rest lk v w hpre hbad hno
    obtain rfl : m = mid := by simpa [getObjPath] using hpre
    cases w
    case obj sub => exact absurd rfl (hno sub)
    all_goals simp [insert_value, hbad]
  | cons key pre' ih =>
    intro m mid k rest lk v w hpre hbad hno
    rcases hm : mapGet m key with _ | val
    · simp [getObjPath, hm] at hpre
    · cases val
      case obj sub =>
        have hpre' : getObjPath sub pre' = some mid := by
          simpa [getObjPath, hm] using hpre
        have hih := ih sub mid k rest lk v w hpre' hbad hno
        show insert_value m (key :: (pre' ++ k :: rest)) lk v = _
        have heq : insert_value m (key :: (pre' ++ k :: rest)) lk v =
            ((mapInsert m key
                (.obj (insert_value sub (pre' ++ k :: rest) lk v).1)).1,
              (insert_value sub (pre' ++ k :: rest) lk v).2) := by
          simp [insert_value, hm]
        rw [heq, hih]
        simp [mapInsert_same m key (.obj sub) hm]
      all_goals simp [getObjPath, hm] at hpre

/-! ### Claim theorems: the flattening engine -/

/-- Claim C1 as stated is false on the code: flattening
`["a.b=1", "a.b=2"]` in one call does report a conflict for the second
entry, but the old value is *not* left in place — `Map::insert` replaces it,
so the path `a.b` resolves to `2`, not `1`. -/
theorem duplicate_leaf_old_value_not_kept :
    explode_str_to_str_map tomlModel some "session" ["a.b=1", "a.b=2"] =
      some [("a", .obj [("b", .num 2)])] ∧
    (explode_str_to_str_map tomlModel some "session" ["a.b=1", "a.b=2"]).bind
      (fun m => lookupLeaf m ["a"] "b") ≠ some (.num 1) := by
  refine ⟨rfl, ?_⟩
  show some (Value.num 2) ≠ some (Value.num 1)
  intro h
  have h1 : Value.num 2 = Value.num 1 := Option.some.inj h
  have h2 : (2 : Int) = 1 := by injection h1
  exact absurd h2 (by decide)

/-- Claim C1 (amended): for every settings tree and every insert whose path
segments all resolve to existing `Object` nodes, if the leaf key already
exists in the final object then the insert fails with a duplicate-leaf
conflict carrying the old value, but the new value replaces the old one in
the tree; in particular flattening `["a.b=1", "a.b=2"]` in one call reports
a conflict for the second entry and `a.b` resolves to `2`. -/
theorem duplicate_leaf_conflict_replaces_old (m final : JMap)
    (path : List String) (k : String) (v old : Value)
    (hpath : getObjPath m path = some final)
    (hold : mapGet final k = some old) :
    (insert_value m path k v).2 = some (.duplicateLeaf old) ∧
    lookupLeaf (insert_value m path k v).1 path k = some v ∧
    (explode_str_to_str_map tomlModel some "session" ["a.b=1", "a.b=2"]).bind
      (fun mm => lookupLeaf mm ["a"] "b") = some (.num 2) := by
  obtain ⟨h1, h2⟩ := insert_value_duplicate path m final k v old hpath hold
  exact ⟨h1, h2, rfl⟩

theorem duplicate_leaf_conflict_replaces_old_witness :
    (insert_value [("a", Value.obj [("b", Value.num 1)])] ["a"] "b"
        (Value.num 2)).2 = some (.duplicateLeaf (.num 1)) ∧
    lookupLeaf (insert_value [("a", Value.obj [("b", Value.num 1)])] ["a"] "b"
        (Value.num 2)).1 ["a"] "b" = some (.num 2) ∧
    (explode_str_to_str_map tomlModel some "session" ["a.b=1", "a.b=2"]).bind
      (fun mm => lookupLeaf mm ["a"] "b") = some (.num 2) :=
  duplicate_leaf_conflict_replaces_old [("a", .obj [("b", .num 1)])]
    [("b", .num 1)] ["a"] "b" (.num 2) (.num 1) rfl rfl

/-- Claim C6: when an insert path reaches an existing node that is not an
`Object`, the entry fails with a not-an-object conflict naming that segment
and the tree — in particular that existing non-object value — is left
unchanged; flattening `["a=1", "a.b=2"]` rejects the second entry and `a`
resolves to `1`. -/
theorem not_an_object_conflict_rejects_entry (m mid : JMap)
    (pre : List String) (k : String) (rest : List String) (lk : String)
    (v w : Value) (hpre : getObjPath m pre = some mid)
    (hbad : mapGet mid k = some w) (hno : ∀ sub, w ≠ .obj sub) :
    insert_value m (pre ++ k :: rest) lk v = (m, some (.notAnObject k)) ∧
    explode_str_to_str_map tomlModel some "session" ["a=1", "a.b=2"] =
      some [("a", .num 1)] :=
  ⟨insert_value_not_object pre m mid k rest lk v w hpre hbad hno, rfl⟩

theorem not_an_object_conflict_rejects_entry_witness :
    insert_value [("a", Value.num 1)] ["a"] "b" (Value.num 2) =
      ([("a", Value.num 1)], some (.notAnObject "a")) ∧
    explode_str_to_str_map tomlModel some "session" ["a=1", "a.b=2"] =
      some [("a", .num 1)] := by
  have h := not_an_object_conflict_rejects_entry [("a", .num 1)]
    [("a", .num 1)] [] "a" [] "b" (.num 2) (.num 1) rfl rfl
    (fun sub hsub => Value.noConfusion hsub)
  exact h

/-- Claim C5: for every sequence of well-formed `key=value` entries whose
dotted keys are pairwise prefix-incomparable, flattening succeeds and
looking any entry's dotted key up in the resulting tree returns exactly the
value that entry inserted. -/
theorem flatten_then_lookup_roundtrip {T : Type} (fromStr : String → Option T)
    (tryInto : T → Option Value) (session : String) (entries : List String)
    (hwf : ∀ e ∈ entries, ∃ path leaf v, EntrySem fromStr tryInto e path leaf v)
    (hpair : entries.Pairwise (fun e1 e2 => ∀ p1 l1 v1 p2 l2 v2,
      EntrySem fromStr tryInto e1 p1 l1 v1 →
      EntrySem fromStr tryInto e2 p2 l2 v2 →
      Incomp (p1 ++ [l1]) (p2 ++ [l2]))) :
    ∃ m, explode_str_to_str_map fromStr tryInto session entries = some m ∧
      ∀ e ∈ entries, ∀ path leaf v, EntrySem fromStr tryInto e path leaf v →
        lookupLeaf m path leaf = some v := by
  have hsome := explodeGo_isSome fromStr tryInto entries []
    (fun e he => by
      obtain ⟨p, l, v, rk, rv, t, hs, _⟩ := hwf e he
      rw [hs]; rfl)
  rcases hgo : explodeGo fromStr tryInto entries [] with _ | m
  · rw [hgo] at hsome; simp at hsome
  · refine ⟨m, hgo, ?_⟩
    exact (explodeGo_lookup fromStr tryInto entries [] m hgo hwf hpair
      (fun e he path leaf v hsem => pathClear_nil_left path)).1

theorem flatten_then_lookup_roundtrip_witness :
    ∃ m, explode_str_to_str_map tomlModel some "session" ["a.b=1", "x=2"] =
        some m ∧
      ∀ e ∈ ["a.b=1", "x=2"], ∀ path leaf v, EntrySem tomlModel some e path leaf v →
        lookupLeaf m path leaf = some v := by
  have hsem1 : EntrySem tomlModel some "a.b=1" ["a"] "b" (.num 1) :=
    ⟨"a.b", "1", .num 1, rfl, rfl, rfl, rfl⟩
  have hsem2 : EntrySem tomlModel some "x=2" [] "x" (.num 2) :=
    ⟨"x", "2", .num 2, rfl, rfl, rfl, rfl⟩
  apply flatten_then_lookup_roundtrip tomlModel some "session" ["a.b=1", "x=2"]
  · intro e he
    rcases List.mem_cons.mp he with rfl | he
    · exact ⟨["a"], "b", .num 1, hsem1⟩
    rcases List.mem_cons.mp he with rfl | he
    · exact ⟨[], "x", .num 2, hsem2⟩
    · exact absurd he (List.not_mem_nil e)
  · refine List.Pairwise.cons ?_ (List.Pairwise.cons
      (fun e' he' => absurd he' (List.not_mem_nil e')) List.Pairwise.nil)
    intro e' he' p1 l1 v1 p2 l2 v2 h1 h2
    rcases List.mem_cons.mp he' with rfl | he'
    · obtain ⟨hp1, hl1, hv1⟩ := EntrySem_det h1 hsem1
      obtain ⟨hp2, hl2, hv2⟩ := EntrySem_det h2 hsem2
      rw [hp1, hl1, hp2, hl2]
      exact ⟨by decide, by decide⟩
    · exact absurd he' (List.not_mem_nil e')

/-- Claim C9: an entry with no `=` makes the whole flattening call fail
(the `unwrap` panics); the remaining entries are not processed, unlike
every other per-entry failure in the same function. -/
theorem missing_eq_is_fatal_for_whole_call {T : Type}
    (fromStr : String → Option T) (tryInto : T → Option Value)
    (session : String) (entries : List String) (e : String)
    (he : e ∈ entries) (hnoeq : split_once e '=' = none) :
    explode_str_to_str_map fromStr tryInto session entries = none := by
  have h : ∀ (es : List String), e ∈ es → ∀ m,
      explodeGo fromStr tryInto es m = none := by
    intro es
    induction es with
    | nil => intro he'; exact absurd he' (List.not_mem_nil e)
    | cons e0 rest ih =>
      intro he' m
      rcases List.mem_cons.mp he' with rfl | he''
      · simp [explodeGo, hnoeq]
      · rcases hs : split_once e0 '=' with _ | ⟨rk, rv⟩
        · simp [explodeGo, hs]
        · simp only [explodeGo, hs]
          repeat' split
          all_goals exact ih he'' _
  exact h entries he []

theorem missing_eq_is_fatal_for_whole_call_witness :
    explode_str_to_str_map tomlModel some "session" ["a.b=1", "novalue"] =
      none :=
  missing_eq_is_fatal_for_whole_call tomlModel some "session"
    ["a.b=1", "novalue"] "novalue"
    (List.mem_cons_of_mem _ (List.mem_cons_self _ _)) rfl

/-- Claim C8: an entirely empty legacy entry sequence yields an absent
result (`None`, continuing the fallback chain), which is observably
different from an override that flattens to an empty object. -/
theorem empty_legacy_sequence_yields_absent {T : Type}
    (fromStr : String → Option T) (tryInto : T → Option Value)
    (meta : EditorMeta) (tokens : List String)
    (hempty : tokens.takeWhile (fun s => s ≠ "map-end") = []) :
    request_legacy_initialization_options_from_kakoune fromStr tryInto meta
      tokens = some none ∧
    ∀ m : JMap, (some (none : Option Value) : Option (Option Value)) ≠
      some (some (.obj m)) := by
  constructor
  · simp only [request_legacy_initialization_options_from_kakoune]
    rw [hempty]
    rfl
  · intro m h
    have h' := Option.some.inj h
    exact Option.noConfusion h'

theorem empty_legacy_sequence_yields_absent_witness :
    request_legacy_initialization_options_from_kakoune tomlModel some metaEx
      ["map-end"] = some none ∧
    ∀ m : JMap, (some (none : Option Value) : Option (Option Value)) ≠
      some (some (.obj m)) :=
  empty_legacy_sequence_yields_absent tomlModel some metaEx ["map-end"] rfl

/-- Claim C10: a non-empty legacy token sequence in which every entry is
discarded by a recoverable per-entry failure yields `Some` of an empty
object, not `None` — the fallback chain stops at the legacy source. -/
theorem all_entries_discarded_yields_empty_object {T : Type}
    (fromStr : String → Option T) (tryInto : T → Option Value)
    (meta : EditorMeta) (tokens : List String)
    (hne : tokens.takeWhile (fun s => s ≠ "map-end") ≠ [])
    (hdisc : ∀ e ∈ tokens.takeWhile (fun s => s ≠ "map-end"),
      ∃ rk rv, split_once e '=' = some (rk, rv) ∧
        (fromStr rv = none ∨ ∃ t, fromStr rv = some t ∧ tryInto t = none)) :
    request_legacy_initialization_options_from_kakoune fromStr tryInto meta
      tokens = some (some (.obj [])) := by
  have hgo : ∀ (es : List String),
      (∀ e ∈ es, ∃ rk rv, split_once e '=' = some (rk, rv) ∧
        (fromStr rv = none ∨ ∃ t, fromStr rv = some t ∧ tryInto t = none)) →
      explodeGo fromStr tryInto es [] = some [] := by
    intro es
    induction es with
    | nil => intro _; rfl
    | cons e0 rest ih =>
      intro h
      obtain ⟨rk, rv, hs, hd⟩ := h e0 (List.mem_cons_self _ _)
      have hrest := fun e' he' => h e' (List.mem_cons_of_mem _ he')
      rcases hd with hd | ⟨t, ht, hconv⟩
      · simp only [explodeGo, hs]
        split
        · exact ih hrest
        · simp only [hd]
          exact ih hrest
      · simp only [explodeGo, hs]
        split
        · exact ih hrest
        · simp only [ht, hconv]
          exact ih hrest
  have hone : explode_str_to_str_map fromStr tryInto meta.session
      (tokens.takeWhile (fun s => s ≠ "map-end")) = some [] := hgo _ hdisc
  have hfalse : (tokens.takeWhile (fun s => s ≠ "map-end")).isEmpty = false := by
    rcases hcase : tokens.takeWhile (fun s => s ≠ "map-end") with _ | ⟨a, rest⟩
    · exact absurd hcase hne
    · rfl
  simp only [request_legacy_initialization_options_from_kakoune]
  rw [hfalse, hone]
  rfl

theorem all_entries_discarded_yields_empty_object_witness :
    request_legacy_initialization_options_from_kakoune tomlModel some metaEx
      ["x=###", "map-end"] = some (some (.obj [])) := by
  apply all_entries_discarded_yields_empty_object tomlModel some metaEx
    ["x=###", "map-end"]
  · decide
  · intro e he
    have he2 : e ∈ ["x=###"] := he
    rcases List.mem_cons.mp he2 with h | h
    · subst h
      exact ⟨"x", "###", rfl, Or.inl rfl⟩
    · exact absurd h (List.not_mem_nil e)

/-! ### Claim theorems: recorder and section projector -/

/-- Claim C4: for every prior context and every configuration text that
fails to parse, recording it raises a fatal condition instead of returning
normally, and the context — in particular `DynamicConfig` — is exactly its
prior value at the moment of the abort (no partial overwrite). -/
theorem record_invalid_config_leaves_state_unchanged
    (parseConfig : String → Option DynamicConfig) (meta : EditorMeta)
    (ctx : Ctx) (config : String) (hbad : parseConfig config = none) :
    record_dynamic_config parseConfig meta ctx config = .fatal ctx := by
  simp [record_dynamic_config, hbad]

theorem record_invalid_config_leaves_state_unchanged_witness :
    record_dynamic_config (fun _ => none) metaEx ctxEx "not toml" =
      .fatal ctxEx :=
  record_invalid_config_leaves_state_unchanged (fun _ => none) metaEx ctxEx
    "not toml" rfl

/-- Claim C7: section projection yields `None` when the settings tree is
absent, when the server's configured section name is unset, and when the
named section key is missing from the tree; otherwise it returns the value
found at that single top-level key (one level of indirection: `Value.get`
on the top-level object only). -/
theorem configured_section_projection (meta : EditorMeta) (ctx : Ctx)
    (server_id : Nat) (server : ServerInstance)
    (hsrv : lookupServer ctx server_id = some server) :
    (configured_section meta ctx server_id none = some none) ∧
    (∀ s : Value,
      (lookup (server_configs ctx.config meta) server.name).bind
          (fun cfg => cfg.settings_section) = none →
      configured_section meta ctx server_id (some s) = some none) ∧
    (∀ (s : Value) (sec : String),
      (lookup (server_configs ctx.config meta) server.name).bind
          (fun cfg => cfg.settings_section) = some sec →
      configured_section meta ctx server_id (some s) = some (s.get sec)) := by
  refine ⟨?_, ?_, ?_⟩
  · simp [configured_section, hsrv]
  · intro s hsec
    rcases hcfg : lookup (server_configs ctx.config meta) server.name
      with _ | cfg
    · simp [configured_section, hsrv, hcfg]
    · rw [hcfg] at hsec
      simp only [Option.some_bind] at hsec
      simp [configured_section, hsrv, hcfg, hsec]
  · intro s sec hsec
    rcases hcfg : lookup (server_configs ctx.config meta) server.name
      with _ | cfg
    · rw [hcfg] at hsec
      simp at hsec
    · rw [hcfg] at hsec
      simp only [Option.some_bind] at hsec
      simp [configured_section, hsrv, hcfg, hsec]

theorem configured_section_projection_witness :
    (configured_section metaEx ctxSection 0 none = some none) ∧
    configured_section metaEx ctxSection 0
      (some (.obj [("sec", .num 7)])) = some (some (.num 7)) := by
  have h := configured_section_projection metaEx ctxSection 0
    { name := "s", settings := none } rfl
  exact ⟨h.1, h.2.2 (.obj [("sec", .num 7)]) "sec" rfl⟩

/-! ### The resolution driver -/

theorem resolveServer_eq_dyn_none {T : Type} (fromStr : String → Option T)
    (tryInto : T → Option Value) (host : Host) (meta : EditorMeta) (ctx : Ctx)
    (sid : Nat) (hd : dynamicSource meta ctx sid = none) :
    resolveServer fromStr tryInto host meta ctx sid = none := by
  unfold resolveServer
  rw [hd]

theorem resolveServer_eq_dyn_hit {T : Type} (fromStr : String → Option T)
    (tryInto : T → Option Value) (host : Host) (meta : EditorMeta) (ctx : Ctx)
    (sid : Nat) (v : Value) (hd : dynamicSource meta ctx sid = some (some v)) :
    resolveServer fromStr tryInto host meta ctx sid = some (some v, []) := by
  unfold resolveServer
  rw [hd]
  rfl

theorem resolveServer_eq_dyn_miss {T : Type} (fromStr : String → Option T)
    (tryInto : T → Option Value) (host : Host) (meta : EditorMeta) (ctx : Ctx)
    (sid : Nat) (hd : dynamicSource meta ctx sid = some none) :
    resolveServer fromStr tryInto host meta ctx sid =
      match request_legacy_initialization_options_from_kakoune fromStr tryInto
          meta host.legacyTokens with
      | none => none
      | some legacy_settings =>
        if legacy_settings.isSome then
          some (legacy_settings, [HostRequest.getServerInitOptions])
        else
          match staticSource meta ctx sid with
          | none => none
          | some st => some (st, [HostRequest.getServerInitOptions]) := by
  unfold resolveServer
  rw [hd]
  rfl

/-- Whenever the dynamic source yields no value for a server and the loop
body still returns, the trace of that loop body is exactly one legacy
round trip. -/
theorem resolveServer_dyn_miss_trace {T : Type} (fromStr : String → Option T)
    (tryInto : T → Option Value) (host : Host) (meta : EditorMeta) (ctx : Ctx)
    (sid : Nat) (r : Option Value) (t : List HostRequest)
    (hd : dynamicSource meta ctx sid = some none)
    (h : resolveServer fromStr tryInto host meta ctx sid = some (r, t)) :
    t = [HostRequest.getServerInitOptions] := by
  rw [resolveServer_eq_dyn_miss fromStr tryInto host meta ctx sid hd] at h
  rcases hl : request_legacy_initialization_options_from_kakoune fromStr
      tryInto meta host.legacyTokens with _ | ls
  · rw [hl] at h
    exact Option.noConfusion h
  · rw [hl] at h
    cases ls with
    | some w =>
      have h2 : some ((some w : Option Value),
          [HostRequest.getServerInitOptions]) = some (r, t) := h
      exact (congrArg Prod.snd (Option.some.inj h2)).symm
    | none =>
      have h2 : (match staticSource meta ctx sid with
          | none => none
          | some st => some (st, [HostRequest.getServerInitOptions])) =
          some (r, t) := h
      rcases hs : staticSource meta ctx sid with _ | st
      · rw [hs] at h2
        exact Option.noConfusion h2
      · rw [hs] at h2
        exact (congrArg Prod.snd (Option.some.inj h2)).symm

/-- The loop body returns the first source that yields a value, in the
fixed order dynamic, legacy, static. -/
theorem resolveServer_priority {T : Type} (fromStr : String → Option T)
    (tryInto : T → Option Value) (host : Host) (meta : EditorMeta) (ctx : Ctx)
    (sid : Nat) (dv lv sv : Option Value) (r : Option Value)
    (t : List HostRequest)
    (hd : dynamicSource meta ctx sid = some dv)
    (hl : request_legacy_initialization_options_from_kakoune fromStr tryInto
      meta host.legacyTokens = some lv)
    (hs : staticSource meta ctx sid = some sv)
    (hr : resolveServer fromStr tryInto host meta ctx sid = some (r, t)) :
    r = match dv with
        | some v => some v
        | none =>
          match lv with
          | some w => some w
          | none => sv := by
  cases dv with
  | some v =>
    rw [resolveServer_eq_dyn_hit fromStr tryInto host meta ctx sid v hd] at hr
    exact (congrArg Prod.fst (Option.some.inj hr)).symm
  | none =>
    rw [resolveServer_eq_dyn_miss fromStr tryInto host meta ctx sid hd, hl] at hr
    cases lv with
    | some w =>
      have h2 : some ((some w : Option Value),
          [HostRequest.getServerInitOptions]) = some (r, t) := hr
      exact (congrArg Prod.fst (Option.some.inj h2)).symm
    | none =>
      have h2 : (match staticSource meta ctx sid with
          | none => none
          | some st => some (st, [HostRequest.getServerInitOptions])) =
          some (r, t) := hr
      rw [hs] at h2
      exact (congrArg Prod.fst (Option.some.inj h2)).symm

/-- The per-server loop produces one result per server, performs one legacy
round trip per dynamically-unsettled server, and never asks for the dynamic
configuration. -/
theorem driverGo_count {T : Type} (fromStr : String → Option T)
    (tryInto : T → Option Value) (host : Host) (meta : EditorMeta) (ctx : Ctx) :
    ∀ (servers : List Nat) (results : List (Option Value))
      (trace : List HostRequest),
      driverGo fromStr tryInto host meta ctx servers = some (results, trace) →
      results.length = servers.length ∧
      trace.countP (fun r => r = HostRequest.getServerInitOptions) =
        servers.countP (fun sid => dynamicMiss meta ctx sid) ∧
      trace.countP (fun r => r = HostRequest.getConfig) = 0 := by
  intro servers
  induction servers with
  | nil =>
    intro results trace h
    have h' : (([], []) : List (Option Value) × List HostRequest) =
        (results, trace) := Option.some.inj h
    obtain ⟨rfl, rfl⟩ := Prod.mk.inj h'
    exact ⟨rfl, rfl, rfl⟩
  | cons sid0 rest ih =>
    intro results trace h
    rcases hres : resolveServer fromStr tryInto host meta ctx sid0
      with _ | ⟨r, t⟩
    · simp only [driverGo, hres] at h
      exact Option.noConfusion h
    · rcases hrest : driverGo fromStr tryInto host meta ctx rest
        with _ | ⟨rs, ts⟩
      · simp only [driverGo, hres, hrest] at h
        exact Option.noConfusion h
      · simp only [driverGo, hres, hrest] at h
        obtain ⟨rfl, rfl⟩ := Prod.mk.inj (Option.some.inj h)
        obtain ⟨ih1, ih2, ih3⟩ := ih rs ts hrest
        rcases hd : dynamicSource meta ctx sid0 with _ | s
        · rw [resolveServer_eq_dyn_none fromStr tryInto host meta ctx sid0 hd]
            at hres
          exact Option.noConfusion hres
        · cases s with
          | none =>
            have ht : t = [HostRequest.getServerInitOptions] :=
              resolveServer_dyn_miss_trace fromStr tryInto host meta ctx sid0
                r t hd hres
            subst ht
            have hmiss : dynamicMiss meta ctx sid0 = true := by
              simp [dynamicMiss, hd]
            refine ⟨by simp [ih1], ?_, ?_⟩
            · rw [List.countP_append]
              rw [show List.countP
                  (fun sid => dynamicMiss meta ctx sid) (sid0 :: rest) =
                List.countP (fun sid => dynamicMiss meta ctx sid) rest +
                  if dynamicMiss meta ctx sid0 then 1 else 0
                from List.countP_cons _ _ _]
              rw [hmiss, if_pos rfl, ← ih2]
              simp
              omega
            · rw [List.countP_append]
              simp [ih3]
          | some v =>
            have hres' := resolveServer_eq_dyn_hit fromStr tryInto host meta
              ctx sid0 v hd
            rw [hres] at hres'
            obtain ⟨rfl, rfl⟩ := Prod.mk.inj (Option.some.inj hres')
            have hmiss : dynamicMiss meta ctx sid0 = false := by
              simp [dynamicMiss, hd]
            refine ⟨by simp [ih1], ?_, by simpa using ih3⟩
            rw [show List.countP
                (fun sid => dynamicMiss meta ctx sid) (sid0 :: rest) =
              List.countP (fun sid => dynamicMiss meta ctx sid) rest +
                if dynamicMiss meta ctx sid0 then 1 else 0
              from List.countP_cons _ _ _]
            rw [hmiss]
            simpa using ih2

/-- Each position of the result list is the result of the loop body run on
the server at the same position. -/
theorem driverGo_align {T : Type} (fromStr : String → Option T)
    (tryInto : T → Option Value) (host : Host) (meta : EditorMeta) (ctx : Ctx) :
    ∀ (servers : List Nat) (results : List (Option Value))
      (trace : List HostRequest),
      driverGo fromStr tryInto host meta ctx servers = some (results, trace) →
      ∀ (i : Nat) (sid : Nat), servers[i]? = some sid →
        ∃ r t, resolveServer fromStr tryInto host meta ctx sid = some (r, t) ∧
          results[i]? = some r := by
  intro servers
  induction servers with
  | nil =>
    intro results trace h i sid hs
    simp at hs
  | cons sid0 rest ih =>
    intro results trace h i sid hs
    rcases hres : resolveServer fromStr tryInto host meta ctx sid0
      with _ | ⟨r, t⟩
    · simp only [driverGo, hres] at h
      exact Option.noConfusion h
    · rcases hrest : driverGo fromStr tryInto host meta ctx rest
        with _ | ⟨rs, ts⟩
      · simp only [driverGo, hres, hrest] at h
        exact Option.noConfusion h
      · simp only [driverGo, hres, hrest] at h
        obtain ⟨rfl, rfl⟩ := Prod.mk.inj (Option.some.inj h)
        cases i with
        | zero =>
          obtain rfl : sid0 = sid := by simpa using hs
          exact ⟨r, t, hres, by simp⟩
        | succ j =>
          have hs' : rest[j]? = some sid := by simpa using hs
          obtain ⟨r', t', h1, h2⟩ := ih rs ts hrest j sid hs'
          exact ⟨r', t', h1, by simpa using h2⟩

/-! ### Claim theorems: the resolution driver -/

/-- Claim C2, as stated, is false on the code: the legacy round trip
happens inside the per-server loop, so a two-server pass in which neither
server is settled by the dynamic source performs the legacy request twice —
more than once per resolution pass. -/
theorem legacy_requested_per_server_not_per_pass :
    ∃ (results : List (Option Value)) (ctx2 : Ctx)
      (trace : List HostRequest),
      request_initialization_options_from_kakoune
        (fun _ => some { language_server := [] }) tomlModel some
        hostEmptyLegacy [0, 1] metaEx ctxTwo = some (results, ctx2, trace) ∧
      trace.countP (fun r => r = HostRequest.getServerInitOptions) = 2 ∧
      ¬ trace.countP (fun r => r = HostRequest.getServerInitOptions) ≤ 1 :=
  ⟨[some (.num 1), some (.num 1)], ctxTwo,
    [.getConfig, .getServerInitOptions, .getServerInitOptions],
    rfl, rfl, by decide⟩

/-- Claim C2 (amended): during one resolution pass the dynamic
configuration is requested exactly once, before the per-server iteration,
while the legacy flattened override is requested once per server whose
dynamic source yields nothing — up to once per server, not at most once per
pass. -/
theorem legacy_request_once_per_unsettled_server {T : Type}
    (parseConfig : String → Option DynamicConfig)
    (fromStr : String → Option T) (tryInto : T → Option Value) (host : Host)
    (servers : List Nat) (meta : EditorMeta) (ctx : Ctx)
    (results : List (Option Value)) (ctx2 : Ctx) (trace : List HostRequest)
    (hrun : request_initialization_options_from_kakoune parseConfig fromStr
      tryInto host servers meta ctx = some (results, ctx2, trace)) :
    trace.countP (fun r => r = HostRequest.getServerInitOptions) =
      servers.countP (fun sid => dynamicMiss meta ctx2 sid) ∧
    trace.countP (fun r => r = HostRequest.getConfig) = 1 := by
  unfold request_initialization_options_from_kakoune at hrun
  rcases hrec : request_dynamic_configuration_from_kakoune parseConfig host
      meta ctx with ctx' | ctx'
  · rw [hrec] at hrun
    have hrun2 : (match driverGo fromStr tryInto host meta ctx' servers with
        | none => none
        | some (sections, trace) =>
          some (sections, ctx', HostRequest.getConfig :: trace)) =
        some (results, ctx2, trace) := hrun
    rcases hdg : driverGo fromStr tryInto host meta ctx' servers
      with _ | ⟨sections, tr⟩
    · rw [hdg] at hrun2
      exact Option.noConfusion hrun2
    · rw [hdg] at hrun2
      have h' := Option.some.inj hrun2
      obtain ⟨rfl, h2⟩ := Prod.mk.inj h'
      obtain ⟨rfl, rfl⟩ := Prod.mk.inj h2
      obtain ⟨_, hcount, hnoconfig⟩ :=
        driverGo_count fromStr tryInto host meta ctx' servers sections tr hdg
      constructor
      · rw [show List.countP
            (fun r => r = HostRequest.getServerInitOptions)
            (HostRequest.getConfig :: tr) =
          List.countP (fun r => r = HostRequest.getServerInitOptions) tr +
            if HostRequest.getConfig = HostRequest.getServerInitOptions
            then 1 else 0 from List.countP_cons _ _ _]
        simpa using hcount
      · rw [show List.countP (fun r => r = HostRequest.getConfig)
            (HostRequest.getConfig :: tr) =
          List.countP (fun r => r = HostRequest.getConfig) tr +
            if HostRequest.getConfig = HostRequest.getConfig
            then 1 else 0 from List.countP_cons _ _ _]
        simpa using hnoconfig
  · rw [hrec] at hrun
    exact Option.noConfusion hrun

theorem legacy_request_once_per_unsettled_server_witness :
    ([HostRequest.getConfig, HostRequest.getServerInitOptions,
        HostRequest.getServerInitOptions] : List HostRequest).countP
        (fun r => r = HostRequest.getServerInitOptions) =
      ([0, 1] : List Nat).countP (fun sid => dynamicMiss metaEx ctxTwo sid) ∧
    ([HostRequest.getConfig, HostRequest.getServerInitOptions,
        HostRequest.getServerInitOptions] : List HostRequest).countP
        (fun r => r = HostRequest.getConfig) = 1 :=
  legacy_request_once_per_unsettled_server
    (fun _ => some { language_server := [] }) tomlModel some hostEmptyLegacy
    [0, 1] metaEx ctxTwo [some (.num 1), some (.num 1)] ctxTwo
    [.getConfig, .getServerInitOptions, .getServerInitOptions] rfl

/-- Claim C3: in a resolution pass every server receives exactly one
`Option Value` result, and that result is determined by trying the three
sources in the fixed order dynamic-projected, legacy-flattened,
static-projected: the first source that yields a value is used verbatim and
the later sources are ignored. -/
theorem resolution_priority_first_source_wins {T : Type}
    (parseConfig : String → Option DynamicConfig)
    (fromStr : String → Option T) (tryInto : T → Option Value) (host : Host)
    (servers : List Nat) (meta : EditorMeta) (ctx : Ctx)
    (results : List (Option Value)) (ctx2 : Ctx) (trace : List HostRequest)
    (hrun : request_initialization_options_from_kakoune parseConfig fromStr
      tryInto host servers meta ctx = some (results, ctx2, trace)) :
    results.length = servers.length ∧
    ∀ (i : Nat) (sid : Nat), servers[i]? = some sid →
      ∀ dv lv sv : Option Value,
        dynamicSource meta ctx2 sid = some dv →
        request_legacy_initialization_options_from_kakoune fromStr tryInto
          meta host.legacyTokens = some lv →
        staticSource meta ctx2 sid = some sv →
        results[i]? = some (match dv with
          | some v => some v
          | none =>
            match lv with
            | some w => some w
            | none => sv) := by
  unfold request_initialization_options_from_kakoune at hrun
  rcases hrec : request_dynamic_configuration_from_kakoune parseConfig host
      meta ctx with ctx' | ctx'
  · rw [hrec] at hrun
    have hrun2 : (match driverGo fromStr tryInto host meta ctx' servers with
        | none => none
        | some (sections, trace) =>
          some (sections, ctx', HostRequest.getConfig :: trace)) =
        some (results, ctx2, trace) := hrun
    rcases hdg : driverGo fromStr tryInto host meta ctx' servers
      with _ | ⟨sections, tr⟩
    · rw [hdg] at hrun2
      exact Option.noConfusion hrun2
    · rw [hdg] at hrun2
      have h' := Option.some.inj hrun2
      obtain ⟨rfl, h2⟩ := Prod.mk.inj h'
      obtain ⟨rfl, rfl⟩ := Prod.mk.inj h2
      refine ⟨(driverGo_count fromStr tryInto host meta ctx' servers sections
        tr hdg).1, ?_⟩
      intro i sid hsid dv lv sv hd hl hs
      obtain ⟨r, t, hres, hidx⟩ := driverGo_align fromStr tryInto host meta
        ctx' servers sections tr hdg i sid hsid
      rw [hidx,
        resolveServer_priority fromStr tryInto host meta ctx' sid dv lv sv
          r t hd hl hs hres]
      cases dv <;> cases lv <;> rfl
  · rw [hrec] at hrun
    exact Option.noConfusion hrun

theorem resolution_priority_first_source_wins_witness :
    ([some (Value.num 1), some (Value.num 1)] : List (Option Value)).length =
      ([0, 1] : List Nat).length ∧
    ([some (Value.num 1), some (Value.num 1)] :
      List (Option Value))[0]? = some (some (Value.num 1)) := by
  have h := resolution_priority_first_source_wins
    (fun _ => some { language_server := [] }) tomlModel some hostEmptyLegacy
    [0, 1] metaEx ctxTwo [some (.num 1), some (.num 1)] ctxTwo
    [.getConfig, .getServerInitOptions, .getServerInitOptions] rfl
  exact ⟨h.1, h.2 0 0 rfl none none (some (.num 1)) rfl rfl rfl⟩

end Settings
